import Mathlib

/-!
Verification of the repetition-detection engine of this repository.

The embedding models, from the source:
  * `packages/core/src/services/loopDetectionService.ts`
    (`LoopDetectionService`: `getToolCallKey`, `addAndCheck`, `reset`), and
  * `packages/cli/src/ui/hooks/useLoopBreaker.ts` (`useLoopBreaker`).

Strings are modelled as `List Char` (`Str`).  JavaScript's `Map` keyed by
strings is modelled as an association list with first-match lookup and
in-place update.  `JSON.stringify` on argument objects is modelled by
`jsonStringify` over a JSON value type whose numbers are integral (the
claims under study do not involve floating-point values).  The SHA-256 hex
digest applied to the key string is modelled as an injective encoding, i.e.
the key is represented by the pre-hash string itself: two inputs collide
exactly when the hashed strings are equal.
-/

namespace LoopDetect

abbrev Str := List Char

/-- The characters treated as sentence-ending punctuation by the regexes
`/[.!?]/` and `/[^.!?]+[.!?]/g` in `loopDetectionService.ts`. -/
def isTerminal (c : Char) : Bool :=
  c == '.' || c == '!' || c == '?'

/-- Whitespace removed by JavaScript `String.prototype.trim` (the ASCII
white-space and line-terminator characters). -/
def isWS (c : Char) : Bool :=
  c == ' ' || c == '\t' || c == '\n' || c == '\r' || c == '\x0b' || c == '\x0c'

/-- `/[.!?]/.test newContent`: some character is sentence-ending. -/
def containsTerminal (s : Str) : Bool :=
  s.any isTerminal

/-- JavaScript `String.prototype.trim`: drop leading and trailing whitespace. -/
def trim (s : Str) : Str :=
  ((s.dropWhile isWS).reverse.dropWhile isWS).reverse

/-- The matcher `/[^.!?]+[.!?]/g`: each match is a maximal nonempty run of
non-terminal characters followed by one terminal character.  `cur` is the
current run, accumulated in reverse. -/
def sentencesAux (cur : Str) : Str → List Str
  | [] => []
  | c :: rest =>
    if isTerminal c then
      if cur.isEmpty then sentencesAux [] rest
      else (cur.reverse ++ [c]) :: sentencesAux [] rest
    else sentencesAux (c :: cur) rest

/-- `accumulatedContent.match(/[^.!?]+[.!?]/g) || []`. -/
def extractSentences (s : Str) : List Str :=
  sentencesAux [] s

/-! ### Decimal digits (for `JSON.stringify` of numbers) -/

def digitChar : Nat → Char
  | 0 => '0' | 1 => '1' | 2 => '2' | 3 => '3' | 4 => '4'
  | 5 => '5' | 6 => '6' | 7 => '7' | 8 => '8' | _ => '9'

def digitVal : Char → Nat
  | '0' => 0 | '1' => 1 | '2' => 2 | '3' => 3 | '4' => 4
  | '5' => 5 | '6' => 6 | '7' => 7 | '8' => 8 | _ => 9

def isDigitChar (c : Char) : Bool :=
  '0' ≤ c && c ≤ '9'

/-- Decimal representation of a natural number, most significant digit first. -/
def natDigits (n : Nat) : Str :=
  if _h : n < 10 then [digitChar n]
  else natDigits (n / 10) ++ [digitChar (n % 10)]
  decreasing_by exact Nat.div_lt_self (by omega) (by omega)

/-- `JSON.stringify` of an (integral) number. -/
def intChars (n : Int) : Str :=
  if n < 0 then '-' :: natDigits n.natAbs else natDigits n.toNat

/-! ### JSON string escaping -/

def hexDigitChar : Nat → Char
  | 0 => '0' | 1 => '1' | 2 => '2' | 3 => '3' | 4 => '4'
  | 5 => '5' | 6 => '6' | 7 => '7' | 8 => '8' | 9 => '9'
  | 10 => 'a' | 11 => 'b' | 12 => 'c' | 13 => 'd' | 14 => 'e' | _ => 'f'

def hexVal : Char → Nat
  | '0' => 0 | '1' => 1 | '2' => 2 | '3' => 3 | '4' => 4
  | '5' => 5 | '6' => 6 | '7' => 7 | '8' => 8 | '9' => 9
  | 'a' => 10 | 'b' => 11 | 'c' => 12 | 'd' => 13 | 'e' => 14 | _ => 15

/-- How `JSON.stringify` escapes one character inside a string literal. -/
def escapeChar (c : Char) : Str :=
  if c = '"' then ['\\', '"']
  else if c = '\\' then ['\\', '\\']
  else if c = '\n' then ['\\', 'n']
  else if c = '\r' then ['\\', 'r']
  else if c = '\t' then ['\\', 't']
  else if c = '\x08' then ['\\', 'b']
  else if c = '\x0c' then ['\\', 'f']
  else if c.toNat < 32 then
    ['\\', 'u', '0', '0', hexDigitChar (c.toNat / 16), hexDigitChar (c.toNat % 16)]
  else [c]

def escapeStr : Str → Str
  | [] => []
  | c :: cs => escapeChar c ++ escapeStr cs

/-- Decimal value of a digit string (proof device for injectivity). -/
def digitsVal (s : Str) : Nat :=
  s.foldl (fun a c => a * 10 + digitVal c) 0

/-- A continuation that cannot extend a maximal digit run: empty, or not
starting with a digit (proof device: serialized JSON values inside arrays
and objects are always followed by `,`, `]` or `}`). -/
def goodFollow : Str → Prop
  | [] => True
  | c :: _ => isDigitChar c = false

/-- Decoder of one escaped character of a JSON string literal (proof
device: left inverse of `escapeChar`). -/
def unescapeHead : Str → Option (Char × Str)
  | [] => none
  | c :: r =>
    if c = '\\' then
      match r with
      | [] => none
      | e :: r' =>
        if e = '"' then some ('"', r')
        else if e = '\\' then some ('\\', r')
        else if e = 'n' then some ('\n', r')
        else if e = 'r' then some ('\r', r')
        else if e = 't' then some ('\t', r')
        else if e = 'b' then some ('\x08', r')
        else if e = 'f' then some ('\x0c', r')
        else if e = 'u' then
          match r' with
          | z1 :: z2 :: h1 :: h2 :: r2 =>
            if z1 = '0' ∧ z2 = '0' then
              some (Char.ofNat (16 * hexVal h1 + hexVal h2), r2)
            else none
          | _ => none
        else none
    else some (c, r)

/-! ### JSON values and `JSON.stringify` -/

/-- JSON values (arguments of tool calls are JSON-representable; numbers are
modelled as integral). Object fields are kept in insertion order, exactly as
JavaScript objects present them to `JSON.stringify`. -/
inductive Json where
  | null : Json
  | bool (b : Bool) : Json
  | num (n : Int) : Json
  | str (s : Str) : Json
  | arr (elems : List Json) : Json
  | obj (fields : List (Str × Json)) : Json

mutual

/-- `JSON.stringify`, field order preserved. -/
def jsonStringify : Json → Str
  | .null => ['n', 'u', 'l', 'l']
  | .num n => intChars n
  | .bool false => ['f', 'a', 'l', 's', 'e']
  | .bool true => ['t', 'r', 'u', 'e']
  | .str s => '"' :: (escapeStr s ++ ['"'])
  | .arr xs => '[' :: (elemsStr xs ++ [']'])
  | .obj fs => '{' :: (fieldsStr fs ++ ['}'])

/-- Comma-separated serialization of array elements. -/
def elemsStr : List Json → Str
  | [] => []
  | [x] => jsonStringify x
  | x :: y :: xs => jsonStringify x ++ ',' :: elemsStr (y :: xs)

/-- Comma-separated serialization of object fields. -/
def fieldsStr : List (Str × Json) → Str
  | [] => []
  | [(k, v)] => '"' :: (escapeStr k ++ '"' :: ':' :: jsonStringify v)
  | (k, v) :: f :: fs =>
    ('"' :: (escapeStr k ++ '"' :: ':' :: jsonStringify v)) ++ ',' :: fieldsStr (f :: fs)

end

/-! ### Association-list model of the JavaScript string-keyed `Map` -/

def mapGet : List (Str × Nat) → Str → Option Nat
  | [], _ => none
  | (k, v) :: rest, key => if k = key then some v else mapGet rest key

def mapSet : List (Str × Nat) → Str → Nat → List (Str × Nat)
  | [], key, val => [(key, val)]
  | (k, v) :: rest, key, val =>
    if k = key then (key, val) :: rest else (k, v) :: mapSet rest key val

/-- Association-list lookup over argument mappings, used to state equality
of argument objects "as maps". -/
def mapGetJ : List (Str × Json) → Str → Option Json
  | [], _ => none
  | (k, v) :: rest, key => if k = key then some v else mapGetJ rest key

/-! ### The stream-mode engine: `LoopDetectionService` -/

def TOOL_CALL_LOOP_THRESHOLD : Nat := 5
def CONTENT_LOOP_THRESHOLD : Nat := 10
def MAX_LOOPBACK_WINDOW : Nat := 1000

/-- `ServerGeminiStreamEvent`, restricted to the variants `addAndCheck`
inspects; every other variant is represented by `other` (the `default`
branch of the `switch`). -/
inductive StreamEvent where
  | toolCallRequest (name : Str) (args : List (Str × Json)) : StreamEvent
  | content (text : Str) : StreamEvent
  | other (tag : Str) : StreamEvent

/-- The private fields of `LoopDetectionService`. -/
structure LoopState where
  toolCallCounts : List (Str × Nat)
  accumulatedContent : Str
  cachedSentences : List Str
  lastContentLength : Nat

/-- Field initializers of `LoopDetectionService`. -/
def initialState : LoopState :=
  { toolCallCounts := []
    accumulatedContent := []
    cachedSentences := []
    lastContentLength := 0 }

/-- `getToolCallKey`: the string
`` `${toolCall.name}:${JSON.stringify(toolCall.args)}` ``.  The SHA-256 hex
digest the source then applies is modelled as an injective encoding, so the
key is represented by the pre-hash string. -/
def getToolCallKey (name : Str) (args : List (Str × Json)) : Str :=
  name ++ ':' :: jsonStringify (.obj args)

/-- Lines 36–47 of `addAndCheck`'s `Content` case: append the delta and, if
the bound is exceeded, drop the oldest characters down to the bound and
invalidate the sentence cache. -/
def appendAndTrim (st : LoopState) (text : Str) : LoopState :=
  let acc := st.accumulatedContent ++ text
  if acc.length > MAX_LOOPBACK_WINDOW then
    { st with
        accumulatedContent := acc.drop (acc.length - MAX_LOOPBACK_WINDOW)
        cachedSentences := []
        lastContentLength := 0 }
  else { st with accumulatedContent := acc }

/-- Lines 55–63: re-extract the cached sentence list when the content has
grown by more than 100 characters since the last extraction or the cache is
empty. -/
def refreshCache (st : LoopState) : LoopState :=
  if st.accumulatedContent.length - st.lastContentLength > 100
      ∨ st.cachedSentences.length = 0 then
    { st with
        cachedSentences := extractSentences st.accumulatedContent
        lastContentLength := st.accumulatedContent.length }
  else st

/-- Lines 69–89: the decision computed from the freshly extracted sentence
list.  The source returns `true` as soon as the running count reaches the
threshold, which yields the same boolean as comparing the total count. -/
def contentCheck (sentences : List Str) : Bool :=
  if sentences.length < 2 then false
  else
    let lastSentence := trim (sentences.getLastD [])
    if lastSentence.isEmpty then false
    else decide (CONTENT_LOOP_THRESHOLD ≤
      sentences.countP (fun s => decide (trim s = lastSentence)))

/-- `addAndCheck`: returns the mutated service state together with the
boolean result. -/
def addAndCheck (st : LoopState) (event : StreamEvent) : LoopState × Bool :=
  match event with
  | .toolCallRequest name args =>
    let key := getToolCallKey name args
    let count := (mapGet st.toolCallCounts key).getD 0 + 1
    ({ st with toolCallCounts := mapSet st.toolCallCounts key count },
      decide (TOOL_CALL_LOOP_THRESHOLD ≤ count))
  | .content text =>
    let st1 := appendAndTrim st text
    if containsTerminal text then
      let st2 := refreshCache st1
      (st2, contentCheck (extractSentences st2.accumulatedContent))
    else (st1, false)
  | .other _ => (st, false)

/-- `reset`: clear the counter map, the buffer and the sentence cache. -/
def reset (st : LoopState) : LoopState :=
  { st with
      toolCallCounts := []
      accumulatedContent := []
      cachedSentences := []
      lastContentLength := 0 }

/-- Feed a list of events through `addAndCheck`, collecting each returned
boolean. -/
def runEvents (st : LoopState) : List StreamEvent → LoopState × List Bool
  | [] => (st, [])
  | e :: es =>
    let r := addAndCheck st e
    let rest := runEvents r.1 es
    (rest.1, r.2 :: rest.2)

/-! ### The history-mode consumer: `useLoopBreaker` -/

def LOOP_THRESHOLD : Nat := 5

/-- The fields of a logged tool call that `useLoopBreaker` reads. -/
structure ToolCallRecord where
  name : Str
  description : Str
  resultDisplay : Json

/-- A conversation-history entry: either a `tool_group` item or any other
item kind. -/
inductive HistoryItem where
  | toolGroup (tools : List ToolCallRecord) : HistoryItem
  | otherItem (tag : Str) : HistoryItem

/-- `StreamingState`; states other than `Idle` and `Responding` are
represented by `WaitingForConfirmation`. -/
inductive StreamingState where
  | Idle : StreamingState
  | Responding : StreamingState
  | WaitingForConfirmation : StreamingState
deriving DecidableEq

/-- The refs owned by `useLoopBreaker`. -/
structure BreakerState where
  toolCallCounts : List (Str × Nat)
  lastHistoryLength : Nat

def initialBreakerState : BreakerState :=
  { toolCallCounts := [], lastHistoryLength := 0 }

/-- The signature `[name, description, JSON.stringify(resultDisplay)].join('-')`;
the SHA-256 hex digest is modelled as an injective encoding as for
`getToolCallKey`. -/
def toolCallSignature (t : ToolCallRecord) : Str :=
  t.name ++ '-' :: (t.description ++ '-' :: jsonStringify t.resultDisplay)

/-- The `for (const toolCall of lastItem.tools)` loop: increment the counter
of each tool call's signature and record whether any new count reached
`LOOP_THRESHOLD`. -/
def processTools (counts : List (Str × Nat)) :
    List ToolCallRecord → List (Str × Nat) × Bool
  | [] => (counts, false)
  | t :: ts =>
    let sig := toolCallSignature t
    let newCount := (mapGet counts sig).getD 0 + 1
    let rest := processTools (mapSet counts sig newCount) ts
    (rest.1, decide (LOOP_THRESHOLD ≤ newCount) || rest.2)

/-- One run of the `useEffect` body of `useLoopBreaker`.  The returned
boolean records whether `cancelRequest` was invoked during the run (it is
invoked at most once per run, guarded by `loopDetected`). -/
def breakerStep (st : BreakerState) (history : List HistoryItem)
    (streamingState : StreamingState) : BreakerState × Bool :=
  match streamingState with
  | .Idle => ({ toolCallCounts := [], lastHistoryLength := 0 }, false)
  | .WaitingForConfirmation => (st, false)
  | .Responding =>
    if history.length ≤ st.lastHistoryLength then (st, false)
    else
      match history.getLastD (.otherItem []) with
      | .otherItem _ => ({ st with lastHistoryLength := history.length }, false)
      | .toolGroup tools =>
        let r := processTools st.toolCallCounts tools
        ({ toolCallCounts := r.1, lastHistoryLength := history.length }, r.2)

/-- Successive runs of the effect, one per change of the inputs, collecting
for each run whether the cancellation callback was invoked. -/
def breakerRun (st : BreakerState) :
    List (List HistoryItem × StreamingState) → BreakerState × List Bool
  | [] => (st, [])
  | (h, s) :: rest =>
    let r := breakerStep st h s
    let next := breakerRun r.1 rest
    (next.1, r.2 :: next.2)

/-! ### Spec-side definitions and concrete inputs -/

/-- The result of a fresh sentence extraction from the current buffer, as
the spec words it for the cache-correctness requirement: compute the
post-append (and post-trim) buffer, apply the completeness gate, then decide
from a fresh extraction of that buffer, consulting no cache. -/
def freshContentResult (oldAcc text : Str) : Bool :=
  let appended := oldAcc ++ text
  let buffer :=
    if appended.length > MAX_LOOPBACK_WINDOW then
      appended.drop (appended.length - MAX_LOOPBACK_WINDOW)
    else appended
  if containsTerminal text then contentCheck (extractSentences buffer)
  else false

/-- Argument mappings that are equal as maps: same value (or absence) at
every key. -/
def MapEqual (a b : List (Str × Json)) : Prop :=
  ∀ k : Str, mapGetJ a k = mapGetJ b k

/- Concrete inputs used by counterexamples and witnesses. -/

def exName : Str := "testTool".data
def exArgsAB : List (Str × Json) :=
  [("a".data, .bool true), ("b".data, .str "x".data)]
def exArgsBA : List (Str × Json) :=
  [("b".data, .str "x".data), ("a".data, .bool true)]
def exArgsV : List (Str × Json) := [("param".data, .str "value".data)]
def exArgsW : List (Str × Json) := [("param".data, .str "other".data)]

/-- A single complete sentence of 101 characters: ten copies overflow the
1000-character window. -/
def exLongSentence : Str := List.replicate 100 'a' ++ ['.']

def exShortSentence : Str := "Period.".data

def exToolRecord : ToolCallRecord :=
  { name := "tool".data, description := "desc".data, resultDisplay := .str "res".data }

/-- Six successive growths of the history, each appending the same
tool-group entry, all while `Responding` (no idle signal anywhere). -/
def exBreakerCalls : List (List HistoryItem × StreamingState) :=
  (List.range 6).map (fun i =>
    (List.replicate (i + 1) (.toolGroup [exToolRecord]), .Responding))

/-- A content delta that overflows the window by one character. -/
def exOverflowText : Str := List.replicate 1001 'a'

/-- `k` successive growths of an append-only history, the `i`-th call
presenting a history of `j + i` copies of the same tool-group entry, all
while `Responding`. -/
def breakerCalls (t : ToolCallRecord) (j : Nat) :
    Nat → List (List HistoryItem × StreamingState)
  | 0 => []
  | k + 1 =>
    (List.replicate (j + 1) (.toolGroup [t]), .Responding) ::
      breakerCalls t (j + 1) k

/-- The callback-invocation flags of `k` successive growths when the
signature's counter currently stands at `c`. -/
def expectedBreakerResults (c : Nat) : Nat → List Bool
  | 0 => []
  | n + 1 =>
    decide (LOOP_THRESHOLD ≤ c + 1) :: expectedBreakerResults (c + 1) n

/-- The booleans returned by `N` successive identical tool-call events when
the key's counter currently stands at `c`. -/
def expectedToolResults (c : Nat) : Nat → List Bool
  | 0 => []
  | n + 1 =>
    decide (TOOL_CALL_LOOP_THRESHOLD ≤ c + 1) :: expectedToolResults (c + 1) n

/-- A state whose counter for the key of `(exName, exArgsV)` stands at 4:
one more identical call crosses the threshold. -/
def exPrimedState : LoopState :=
  { initialState with toolCallCounts := [(getToolCallKey exName exArgsV, 4)] }

/-- `k` concatenated copies of a string. -/
def repConcat : Nat → Str → Str
  | 0, _ => []
  | n + 1, s => s ++ repConcat n s

/-- The booleans returned by `N` successive deltas of one identical complete
sentence when the buffer already holds `j` copies and no truncation occurs. -/
def expectedContentResults (j : Nat) : Nat → List Bool
  | 0 => []
  | n + 1 =>
    decide (CONTENT_LOOP_THRESHOLD ≤ j + 1) :: expectedContentResults (j + 1) n

/-! ### Helper lemmas -/

theorem appendAndTrim_toolCallCounts (st : LoopState) (text : Str) :
    (appendAndTrim st text).toolCallCounts = st.toolCallCounts := by
  unfold appendAndTrim; dsimp only; split <;> rfl

theorem refreshCache_toolCallCounts (st : LoopState) :
    (refreshCache st).toolCallCounts = st.toolCallCounts := by
  unfold refreshCache; split <;> rfl

theorem refreshCache_accumulatedContent (st : LoopState) :
    (refreshCache st).accumulatedContent = st.accumulatedContent := by
  unfold refreshCache; split <;> rfl

theorem appendAndTrim_accumulatedContent (st : LoopState) (text : Str) :
    (appendAndTrim st text).accumulatedContent =
      if (st.accumulatedContent ++ text).length > MAX_LOOPBACK_WINDOW then
        (st.accumulatedContent ++ text).drop
          ((st.accumulatedContent ++ text).length - MAX_LOOPBACK_WINDOW)
      else st.accumulatedContent ++ text := by
  unfold appendAndTrim; dsimp only
  split <;> simp

theorem mapGet_mapSet_self (m : List (Str × Nat)) (k : Str) (v : Nat) :
    mapGet (mapSet m k v) k = some v := by
  induction m with
  | nil => simp [mapGet, mapSet]
  | cons p rest ih =>
    obtain ⟨k', v'⟩ := p
    unfold mapSet
    by_cases h : k' = k
    · simp [h, mapGet]
    · simp [h, mapGet, ih]

theorem mapGet_mapSet_other (m : List (Str × Nat)) (k key : Str) (v : Nat)
    (h : k ≠ key) : mapGet (mapSet m k v) key = mapGet m key := by
  induction m with
  | nil => simp [mapGet, mapSet, h]
  | cons p rest ih =>
    obtain ⟨k', v'⟩ := p
    unfold mapSet
    by_cases h' : k' = k
    · simp [h', mapGet, h]
    · simp [h', mapGet, ih]

theorem addAndCheck_toolCall (st : LoopState) (name : Str)
    (args : List (Str × Json)) :
    addAndCheck st (.toolCallRequest name args) =
      ({ st with
          toolCallCounts := mapSet st.toolCallCounts (getToolCallKey name args)
            ((mapGet st.toolCallCounts (getToolCallKey name args)).getD 0 + 1) },
        decide (TOOL_CALL_LOOP_THRESHOLD ≤
          (mapGet st.toolCallCounts (getToolCallKey name args)).getD 0 + 1)) :=
  rfl

theorem runEvents_cons (st : LoopState) (e : StreamEvent)
    (es : List StreamEvent) :
    runEvents st (e :: es) =
      ((runEvents (addAndCheck st e).1 es).1,
        (addAndCheck st e).2 :: (runEvents (addAndCheck st e).1 es).2) :=
  rfl

theorem runEvents_toolCalls (name : Str) (args : List (Str × Json)) :
    ∀ (N : Nat) (st : LoopState),
      (runEvents st (List.replicate N (.toolCallRequest name args))).2 =
        expectedToolResults
          ((mapGet st.toolCallCounts (getToolCallKey name args)).getD 0) N := by
  intro N
  induction N with
  | zero => intro st; rfl
  | succ n ih =>
    intro st
    rw [List.replicate_succ, runEvents_cons]
    dsimp only
    rw [ih, addAndCheck_toolCall]
    dsimp only
    rw [mapGet_mapSet_self]
    rfl

theorem expectedToolResults_false (c N : Nat)
    (h : c + N < TOOL_CALL_LOOP_THRESHOLD) :
    expectedToolResults c N = List.replicate N false := by
  induction N generalizing c with
  | zero => rfl
  | succ n ih =>
    unfold expectedToolResults
    simp only [TOOL_CALL_LOOP_THRESHOLD] at h ⊢
    have hc : ¬ (5 ≤ c + 1) := by omega
    simp only [decide_eq_false hc, List.replicate_succ]
    rw [ih]
    simp only [TOOL_CALL_LOOP_THRESHOLD]
    omega

theorem addAndCheck_content_toolCallCounts (st : LoopState) (text : Str) :
    (addAndCheck st (.content text)).1.toolCallCounts = st.toolCallCounts := by
  unfold addAndCheck
  dsimp only
  split <;>
    simp [refreshCache_toolCallCounts, appendAndTrim_toolCallCounts]

theorem count_le_addAndCheck (st : LoopState) (e : StreamEvent) (key : Str) :
    (mapGet st.toolCallCounts key).getD 0 ≤
      (mapGet (addAndCheck st e).1.toolCallCounts key).getD 0 := by
  cases e with
  | toolCallRequest n a =>
    rw [addAndCheck_toolCall]
    dsimp only
    by_cases hk : getToolCallKey n a = key
    · subst hk
      rw [mapGet_mapSet_self]
      simp only [Option.getD_some]
      omega
    · rw [mapGet_mapSet_other _ _ _ _ hk]
  | content t => rw [addAndCheck_content_toolCallCounts]
  | other tag => exact le_refl _

theorem count_le_runEvents (evs : List StreamEvent) :
    ∀ (st : LoopState) (key : Str),
      (mapGet st.toolCallCounts key).getD 0 ≤
        (mapGet (runEvents st evs).1.toolCallCounts key).getD 0 := by
  induction evs with
  | nil => intro st key; exact le_refl _
  | cons e es ih =>
    intro st key
    rw [runEvents_cons]
    exact le_trans (count_le_addAndCheck st e key) (ih (addAndCheck st e).1 key)

theorem repConcat_snoc (j : Nat) (s : Str) :
    repConcat j s ++ s = repConcat (j + 1) s := by
  induction j with
  | zero => simp [repConcat]
  | succ n ih => simp only [repConcat, List.append_assoc, ih]

theorem repConcat_length (j : Nat) (s : Str) :
    (repConcat j s).length = j * s.length := by
  induction j with
  | zero => simp [repConcat]
  | succ n ih => simp [repConcat, ih, Nat.succ_mul]; omega

theorem sentencesAux_nonterminal (body : Str)
    (hnt : ∀ x ∈ body, isTerminal x = false) :
    ∀ (cur rest : Str),
      sentencesAux cur (body ++ rest) = sentencesAux (body.reverse ++ cur) rest := by
  induction body with
  | nil => intro cur rest; simp
  | cons b bs ih =>
    intro cur rest
    have hb : isTerminal b = false := hnt b (by simp)
    have hbs : ∀ x ∈ bs, isTerminal x = false := fun x hx => hnt x (by simp [hx])
    simp only [List.cons_append, sentencesAux, hb, Bool.false_eq_true, if_false,
      List.append_eq]
    rw [ih hbs (b :: cur) rest]
    simp

theorem sentencesAux_sentence (body : Str) (c : Char) (rest : Str)
    (hb : body ≠ []) (hnt : ∀ x ∈ body, isTerminal x = false)
    (hc : isTerminal c = true) :
    sentencesAux [] (body ++ c :: rest) =
      (body ++ [c]) :: sentencesAux [] rest := by
  rw [sentencesAux_nonterminal body hnt [] (c :: rest)]
  have hrev : (body.reverse ++ []).isEmpty = false := by
    simp [List.isEmpty_iff, hb]
  simp only [sentencesAux, hc, if_pos, hrev, Bool.false_eq_true, if_false]
  simp

theorem extract_repConcat (s body : Str) (c : Char) (hs : s = body ++ [c])
    (hb : body ≠ []) (hnt : ∀ x ∈ body, isTerminal x = false)
    (hc : isTerminal c = true) (k : Nat) :
    extractSentences (repConcat k s) = List.replicate k s := by
  induction k with
  | zero => rfl
  | succ n ih =>
    unfold extractSentences at ih ⊢
    show sentencesAux [] (s ++ repConcat n s) = _
    nth_rewrite 1 [hs]
    rw [List.append_assoc, List.singleton_append,
      sentencesAux_sentence body c _ hb hnt hc, ih, ← hs, List.replicate_succ]

theorem dropWhile_append_singleton (p : Char → Bool) (xs : Str) (c : Char)
    (hc : p c = false) : ∃ ys, (xs ++ [c]).dropWhile p = ys ++ [c] := by
  induction xs with
  | nil => exact ⟨[], by simp [List.dropWhile, hc]⟩
  | cons x xs ih =>
    by_cases hx : p x
    · simpa [List.dropWhile_cons, hx] using ih
    · exact ⟨x :: xs, by simp [List.dropWhile_cons, hx]⟩

theorem trim_concat_ne (xs : Str) (c : Char) (hc : isWS c = false) :
    (trim (xs ++ [c])).isEmpty = false := by
  obtain ⟨ys, hys⟩ := dropWhile_append_singleton isWS xs c hc
  unfold trim
  rw [hys, List.reverse_append]
  simp [List.dropWhile_cons, hc]

theorem ws_false_of_terminal (c : Char) (hc : isTerminal c = true) :
    isWS c = false := by
  simp only [isTerminal, Bool.or_eq_true, beq_iff_eq] at hc
  rcases hc with (h | h) | h <;> subst h <;> rfl

theorem containsTerminal_of_concat (body : Str) (c : Char)
    (hc : isTerminal c = true) : containsTerminal (body ++ [c]) = true := by
  simp only [containsTerminal, List.any_eq_true]
  exact ⟨c, by simp, hc⟩

theorem countP_trim_replicate (k : Nat) (s : Str) :
    List.countP (fun x => decide (trim x = trim s)) (List.replicate k s) = k := by
  induction k with
  | zero => rfl
  | succ n ih => simp [List.replicate_succ, List.countP_cons, ih]

theorem contentCheck_replicate (s body : Str) (c : Char) (hs : s = body ++ [c])
    (hc : isTerminal c = true) (k : Nat) :
    contentCheck (List.replicate k s) = decide (CONTENT_LOOP_THRESHOLD ≤ k) := by
  unfold contentCheck
  by_cases hk : (List.replicate k s).length < 2
  · rw [if_pos hk]
    simp only [List.length_replicate] at hk
    have h10 : ¬ (CONTENT_LOOP_THRESHOLD ≤ k) := by
      simp only [CONTENT_LOOP_THRESHOLD]; omega
    simp [h10]
  · rw [if_neg hk]
    simp only [List.length_replicate] at hk
    obtain ⟨m, rfl⟩ : ∃ m, k = m + 1 := ⟨k - 1, by omega⟩
    have hlast : (List.replicate (m + 1) s).getLastD [] = s := by
      rw [List.replicate_succ', List.getLastD_concat]
    rw [hlast]
    dsimp only
    have htrim : (trim s).isEmpty = false := by
      rw [hs]; exact trim_concat_ne body c (ws_false_of_terminal c hc)
    rw [htrim]
    simp only [Bool.false_eq_true, if_false]
    rw [countP_trim_replicate]

theorem sentencesAux_length_le :
    ∀ (l cur : Str), (sentencesAux cur l).length ≤ l.countP isTerminal := by
  intro l
  induction l with
  | nil => intro cur; simp [sentencesAux]
  | cons c rest ih =>
    intro cur
    unfold sentencesAux
    by_cases hc : isTerminal c = true
    · have hcnt : (c :: rest).countP isTerminal = rest.countP isTerminal + 1 := by
        simp [List.countP_cons, hc]
      rw [if_pos hc, hcnt]
      by_cases hcur : cur.isEmpty = true
      · rw [if_pos hcur]
        have := ih []
        omega
      · rw [if_neg hcur]
        have := ih []
        simp only [List.length_cons]
        omega
    · have hcnt : (c :: rest).countP isTerminal = rest.countP isTerminal := by
        simp [List.countP_cons, hc]
      rw [if_neg hc, hcnt]
      exact ih (c :: cur)

theorem contentCheck_false_of_short (sentences : List Str)
    (h : sentences.length < CONTENT_LOOP_THRESHOLD) :
    contentCheck sentences = false := by
  unfold contentCheck
  by_cases h2 : sentences.length < 2
  · rw [if_pos h2]
  · rw [if_neg h2]
    dsimp only
    by_cases he : (trim (sentences.getLastD [])).isEmpty = true
    · rw [if_pos he]
    · rw [if_neg he]
      have hle := List.countP_le_length
        (p := fun s => decide (trim s = trim (sentences.getLastD [])))
        (l := sentences)
      rw [decide_eq_false]
      simp only [CONTENT_LOOP_THRESHOLD] at h ⊢
      omega

theorem addAndCheck_content_pos (st : LoopState) (text : Str)
    (h : containsTerminal text = true) :
    addAndCheck st (.content text) =
      (refreshCache (appendAndTrim st text),
        contentCheck (extractSentences
          (refreshCache (appendAndTrim st text)).accumulatedContent)) := by
  unfold addAndCheck
  dsimp only
  rw [if_pos h]

theorem addAndCheck_content_neg (st : LoopState) (text : Str)
    (h : containsTerminal text = false) :
    addAndCheck st (.content text) = (appendAndTrim st text, false) := by
  unfold addAndCheck
  dsimp only
  rw [if_neg (by simp [h])]

theorem content_step_noTrim (s body : Str) (c : Char) (hs : s = body ++ [c])
    (hb : body ≠ []) (hnt : ∀ x ∈ body, isTerminal x = false)
    (hc : isTerminal c = true) (st : LoopState) (j : Nat)
    (hacc : st.accumulatedContent = repConcat j s)
    (hlen : (j + 1) * s.length ≤ MAX_LOOPBACK_WINDOW) :
    (addAndCheck st (.content s)).1.accumulatedContent = repConcat (j + 1) s ∧
      (addAndCheck st (.content s)).2 =
        decide (CONTENT_LOOP_THRESHOLD ≤ j + 1) := by
  have hterm : containsTerminal s = true := by
    rw [hs]; exact containsTerminal_of_concat body c hc
  have hlen' : ¬ ((repConcat (j + 1) s).length > MAX_LOOPBACK_WINDOW) := by
    rw [repConcat_length]; omega
  have hacc1 : (appendAndTrim st s).accumulatedContent = repConcat (j + 1) s := by
    rw [appendAndTrim_accumulatedContent, hacc, repConcat_snoc, if_neg hlen']
  rw [addAndCheck_content_pos st s hterm]
  dsimp only
  rw [refreshCache_accumulatedContent, hacc1]
  refine ⟨rfl, ?_⟩
  rw [extract_repConcat s body c hs hb hnt hc (j + 1)]
  exact contentCheck_replicate s body c hs hc (j + 1)

theorem runEvents_content_noTrim (s body : Str) (c : Char)
    (hs : s = body ++ [c]) (hb : body ≠ [])
    (hnt : ∀ x ∈ body, isTerminal x = false) (hc : isTerminal c = true) :
    ∀ (N j : Nat) (st : LoopState),
      st.accumulatedContent = repConcat j s →
      (j + N) * s.length ≤ MAX_LOOPBACK_WINDOW →
      (runEvents st (List.replicate N (.content s))).2 =
        expectedContentResults j N := by
  intro N
  induction N with
  | zero => intro j st _ _; rfl
  | succ n ih =>
    intro j st hacc hlen
    rw [List.replicate_succ, runEvents_cons]
    dsimp only
    have hstep := content_step_noTrim s body c hs hb hnt hc st j hacc (by
      calc (j + 1) * s.length ≤ (j + (n + 1)) * s.length :=
            Nat.mul_le_mul_right _ (by omega)
        _ ≤ MAX_LOOPBACK_WINDOW := hlen)
    rw [hstep.2, ih (j + 1) _ hstep.1 (by
      have hj : j + 1 + n = j + (n + 1) := by omega
      rw [hj]; exact hlen)]
    rfl

theorem countP_appendAndTrim (st : LoopState) (t : Str) :
    ((appendAndTrim st t).accumulatedContent).countP isTerminal ≤
      st.accumulatedContent.countP isTerminal + t.countP isTerminal := by
  rw [appendAndTrim_accumulatedContent]
  split
  · calc ((st.accumulatedContent ++ t).drop
          ((st.accumulatedContent ++ t).length - MAX_LOOPBACK_WINDOW)).countP
            isTerminal ≤
        (st.accumulatedContent ++ t).countP isTerminal :=
          (List.drop_sublist _ _).countP_le _
      _ = _ := List.countP_append _ _ _
  · rw [List.countP_append]

theorem contentCheck_extract_false (acc : Str)
    (h : acc.countP isTerminal < CONTENT_LOOP_THRESHOLD) :
    contentCheck (extractSentences acc) = false := by
  apply contentCheck_false_of_short
  exact lt_of_le_of_lt (sentencesAux_length_le acc []) h

theorem content_output_false (st : LoopState) (t : Str)
    (h : st.accumulatedContent.countP isTerminal + t.countP isTerminal <
      CONTENT_LOOP_THRESHOLD) :
    (addAndCheck st (.content t)).2 = false := by
  cases hct : containsTerminal t with
  | false => rw [addAndCheck_content_neg st t hct]
  | true =>
    rw [addAndCheck_content_pos st t hct]
    dsimp only
    rw [refreshCache_accumulatedContent]
    apply contentCheck_extract_false
    exact lt_of_le_of_lt (countP_appendAndTrim st t) h

theorem countP_addAndCheck_content (st : LoopState) (t : Str) :
    (addAndCheck st (.content t)).1.accumulatedContent.countP isTerminal ≤
      st.accumulatedContent.countP isTerminal + t.countP isTerminal := by
  cases hct : containsTerminal t with
  | false => rw [addAndCheck_content_neg st t hct]; exact countP_appendAndTrim st t
  | true =>
    rw [addAndCheck_content_pos st t hct]
    dsimp only
    rw [refreshCache_accumulatedContent]
    exact countP_appendAndTrim st t

theorem runEvents_content_false (t : Str) (ht : t.countP isTerminal ≤ 1) :
    ∀ (N : Nat) (st : LoopState),
      st.accumulatedContent.countP isTerminal + N < CONTENT_LOOP_THRESHOLD →
      (runEvents st (List.replicate N (.content t))).2 =
        List.replicate N false := by
  intro N
  induction N with
  | zero => intro st _; rfl
  | succ n ih =>
    intro st h
    rw [List.replicate_succ, runEvents_cons]
    dsimp only
    rw [content_output_false st t (by
      simp only [CONTENT_LOOP_THRESHOLD] at h ⊢; omega)]
    rw [ih _ (by
      have hcp := countP_addAndCheck_content st t
      simp only [CONTENT_LOOP_THRESHOLD] at h ⊢
      omega)]
    rw [List.replicate_succ]

/-! ### Injectivity of the canonical serialization -/

theorem digitVal_digitChar (d : Nat) (h : d < 10) :
    digitVal (digitChar d) = d := by
  interval_cases d <;> rfl

theorem isDigitChar_digitChar (d : Nat) (h : d < 10) :
    isDigitChar (digitChar d) = true := by
  interval_cases d <;> rfl

theorem natDigits_ne_nil (n : Nat) : natDigits n ≠ [] := by
  unfold natDigits
  split <;> simp

theorem natDigits_all_digits (n : Nat) :
    ∀ c ∈ natDigits n, isDigitChar c = true := by
  induction n using Nat.strong_induction_on with
  | _ n ih =>
    unfold natDigits
    split <;> rename_i h
    · intro c hc
      simp only [List.mem_singleton] at hc
      subst hc
      exact isDigitChar_digitChar n h
    · intro c hc
      rw [List.mem_append] at hc
      rcases hc with hc | hc
      · exact ih (n / 10) (Nat.div_lt_self (by omega) (by omega)) c hc
      · simp only [List.mem_singleton] at hc
        subst hc
        exact isDigitChar_digitChar (n % 10) (Nat.mod_lt _ (by omega))

theorem natDigits_head (n : Nat) :
    ∃ c r, natDigits n = c :: r ∧ isDigitChar c = true := by
  cases hnd : natDigits n with
  | nil => exact absurd hnd (natDigits_ne_nil n)
  | cons c r =>
    exact ⟨c, r, rfl, natDigits_all_digits n c (by rw [hnd]; simp)⟩

theorem foldl_natDigits (n : Nat) :
    ∀ a, (natDigits n).foldl (fun a c => a * 10 + digitVal c) a =
      a * 10 ^ (natDigits n).length + n := by
  induction n using Nat.strong_induction_on with
  | _ n ih =>
    intro a
    unfold natDigits
    split <;> rename_i h
    · simp [digitVal_digitChar n h]
    · rw [List.foldl_append, ih (n / 10) (Nat.div_lt_self (by omega) (by omega)) a]
      simp only [List.foldl_cons, List.foldl_nil,
        digitVal_digitChar (n % 10) (Nat.mod_lt _ (by omega)),
        List.length_append, List.length_singleton]
      have hdm := Nat.div_add_mod n 10
      rw [Nat.pow_succ]
      ring_nf
      omega

theorem digitsVal_natDigits (n : Nat) : digitsVal (natDigits n) = n := by
  unfold digitsVal
  rw [foldl_natDigits n 0]
  simp

theorem natDigits_inj {n m : Nat} (hEq : natDigits n = natDigits m) :
    n = m := by
  have h := digitsVal_natDigits n
  rw [hEq, digitsVal_natDigits] at h
  omega

theorem digit_run_inj :
    ∀ (s t u v : Str), (∀ c ∈ s, isDigitChar c = true) →
      (∀ c ∈ t, isDigitChar c = true) → goodFollow u → goodFollow v →
      s ++ u = t ++ v → s = t ∧ u = v := by
  intro s
  induction s with
  | nil =>
    intro t u v _ ht hu hv h
    cases t with
    | nil => simpa using h
    | cons c t' =>
      exfalso
      simp only [List.nil_append, List.cons_append] at h
      have hc := ht c (by simp)
      rw [h] at hu
      simp only [goodFollow] at hu
      simp [hc] at hu
  | cons c s' ih =>
    intro t u v hs ht hu hv h
    cases t with
    | nil =>
      exfalso
      simp only [List.cons_append, List.nil_append] at h
      have hc := hs c (by simp)
      rw [← h] at hv
      simp only [goodFollow] at hv
      simp [hc] at hv
    | cons d t' =>
      simp only [List.cons_append, List.cons.injEq] at h
      obtain ⟨rfl, h2⟩ := h
      obtain ⟨h3, h4⟩ := ih t' u v (fun x hx => hs x (by simp [hx]))
        (fun x hx => ht x (by simp [hx])) hu hv h2
      exact ⟨by rw [h3], h4⟩

theorem intChars_append_inj (n m : Int) (u v : Str) (hu : goodFollow u)
    (hv : goodFollow v) (h : intChars n ++ u = intChars m ++ v) :
    n = m ∧ u = v := by
  unfold intChars at h
  by_cases hn : n < 0 <;> by_cases hm : m < 0
  · rw [if_pos hn, if_pos hm] at h
    simp only [List.cons_append, List.cons.injEq, true_and] at h
    obtain ⟨h3, h4⟩ := digit_run_inj _ _ u v (natDigits_all_digits _)
      (natDigits_all_digits _) hu hv h
    have := natDigits_inj h3
    exact ⟨by omega, h4⟩
  · exfalso
    rw [if_pos hn, if_neg hm] at h
    obtain ⟨c, r, hc, hd⟩ := natDigits_head m.toNat
    rw [hc] at h
    simp only [List.cons_append, List.cons.injEq] at h
    obtain ⟨h1, -⟩ := h
    rw [← h1] at hd
    exact absurd hd (by decide)
  · exfalso
    rw [if_neg hn, if_pos hm] at h
    obtain ⟨c, r, hc, hd⟩ := natDigits_head n.toNat
    rw [hc] at h
    simp only [List.cons_append, List.cons.injEq] at h
    obtain ⟨h1, -⟩ := h
    rw [h1] at hd
    exact absurd hd (by decide)
  · rw [if_neg hn, if_neg hm] at h
    obtain ⟨h3, h4⟩ := digit_run_inj _ _ u v (natDigits_all_digits _)
      (natDigits_all_digits _) hu hv h
    have := natDigits_inj h3
    exact ⟨by omega, h4⟩

theorem hexVal_hexDigitChar (a : Nat) (h : a < 16) :
    hexVal (hexDigitChar a) = a := by
  interval_cases a <;> rfl

theorem unescapeHead_escapeChar (c : Char) (r : Str) :
    unescapeHead (escapeChar c ++ r) = some (c, r) := by
  unfold escapeChar
  split_ifs with h1 h2 h3 h4 h5 h6 h7 h8
  · subst h1; rfl
  · subst h2; rfl
  · subst h3; rfl
  · subst h4; rfl
  · subst h5; rfl
  · subst h6; rfl
  · subst h7; rfl
  · show unescapeHead ('\\' :: 'u' :: '0' :: '0' ::
      hexDigitChar (c.toNat / 16) :: hexDigitChar (c.toNat % 16) :: r) =
      some (c, r)
    have hdiv : c.toNat / 16 < 16 := by omega
    have hmod : c.toNat % 16 < 16 := Nat.mod_lt _ (by omega)
    have hstep : unescapeHead ('\\' :: 'u' :: '0' :: '0' ::
        hexDigitChar (c.toNat / 16) :: hexDigitChar (c.toNat % 16) :: r) =
        some (Char.ofNat (16 * hexVal (hexDigitChar (c.toNat / 16)) +
          hexVal (hexDigitChar (c.toNat % 16))), r) := rfl
    rw [hstep, hexVal_hexDigitChar _ hdiv, hexVal_hexDigitChar _ hmod,
      Nat.div_add_mod, Char.ofNat_toNat]
  · show unescapeHead (c :: r) = some (c, r)
    unfold unescapeHead
    dsimp only
    rw [if_neg h2]

theorem escapeChar_head (c : Char) :
    ∃ e es, escapeChar c = e :: es ∧ e ≠ '"' := by
  unfold escapeChar
  split_ifs with h1 h2 h3 h4 h5 h6 h7 h8 <;>
    first
      | exact ⟨'\\', _, rfl, by decide⟩
      | exact ⟨c, [], rfl, h1⟩

theorem strBody_inj :
    ∀ (x y u v : Str),
      escapeStr x ++ '"' :: u = escapeStr y ++ '"' :: v → x = y ∧ u = v := by
  intro x
  induction x with
  | nil =>
    intro y u v h
    cases y with
    | nil => simpa using h
    | cons d ys =>
      exfalso
      obtain ⟨e, es, he, hne⟩ := escapeChar_head d
      simp only [escapeStr, List.nil_append, he, List.cons_append,
        List.cons.injEq] at h
      exact hne h.1.symm
  | cons c xs ih =>
    intro y u v h
    cases y with
    | nil =>
      exfalso
      obtain ⟨e, es, he, hne⟩ := escapeChar_head c
      simp only [escapeStr, List.nil_append, he, List.cons_append,
        List.cons.injEq] at h
      exact hne h.1
    | cons d ys =>
      simp only [escapeStr, List.append_assoc] at h
      have h1 := congrArg unescapeHead h
      rw [unescapeHead_escapeChar, unescapeHead_escapeChar] at h1
      simp only [Option.some.injEq, Prod.mk.injEq] at h1
      obtain ⟨rfl, h2⟩ := h1
      obtain ⟨h3, h4⟩ := ih ys u v h2
      exact ⟨by rw [h3], h4⟩

theorem goodFollow_cons (c : Char) (u : Str) (h : isDigitChar c = false) :
    goodFollow (c :: u) := h

theorem cons_head_ne {c d : Char} (hne : c ≠ d) (X Y : Str) :
    c :: X ≠ d :: Y := by
  intro h
  injection h with h1 _
  exact hne h1

theorem intChars_head (n : Int) :
    ∃ c r, intChars n = c :: r ∧ (isDigitChar c = true ∨ c = '-') := by
  unfold intChars
  split
  · exact ⟨'-', _, rfl, Or.inr rfl⟩
  · obtain ⟨c, r, hc, hd⟩ := natDigits_head n.toNat
    exact ⟨c, r, hc, Or.inl hd⟩

theorem intChars_head_not (n : Int) (c : Char) (hdig : isDigitChar c = false)
    (hminus : c ≠ '-') : ∀ (u w : Str), intChars n ++ u ≠ c :: w := by
  intro u w h
  obtain ⟨c', r', hc', hd⟩ := intChars_head n
  rw [hc'] at h
  injection h with h1 _
  subst h1
  rcases hd with hd | hd
  · simp [hdig] at hd
  · exact hminus hd

theorem stringify_head_not_special (a : Json) :
    ∃ c r, jsonStringify a = c :: r ∧ c ≠ ']' ∧ c ≠ ',' ∧ c ≠ '}' := by
  cases a with
  | null =>
    exact ⟨'n', ['u', 'l', 'l'], by simp [jsonStringify], by decide, by decide, by decide⟩
  | bool bo =>
    cases bo
    · exact ⟨'f', ['a', 'l', 's', 'e'], by simp [jsonStringify],
        by decide, by decide, by decide⟩
    · exact ⟨'t', ['r', 'u', 'e'], by simp [jsonStringify],
        by decide, by decide, by decide⟩
  | num n =>
    obtain ⟨c, r, hc, hd⟩ := intChars_head n
    refine ⟨c, r, by simp [jsonStringify, hc], ?_, ?_, ?_⟩ <;>
      · rintro rfl
        rcases hd with hd | hd
        · exact absurd hd (by decide)
        · exact absurd hd (by decide)
  | str s =>
    exact ⟨'"', escapeStr s ++ ['"'], by simp [jsonStringify],
      by decide, by decide, by decide⟩
  | arr xs =>
    exact ⟨'[', elemsStr xs ++ [']'], by simp [jsonStringify],
      by decide, by decide, by decide⟩
  | obj fs =>
    exact ⟨'{', fieldsStr fs ++ ['}'], by simp [jsonStringify],
      by decide, by decide, by decide⟩

theorem elemsStr_append_inj :
    ∀ (xs ys : List Json) (u v : Str),
      (∀ x ∈ xs, ∀ (b : Json) (u' v' : Str), goodFollow u' → goodFollow v' →
        jsonStringify x ++ u' = jsonStringify b ++ v' → x = b ∧ u' = v') →
      elemsStr xs ++ ']' :: u = elemsStr ys ++ ']' :: v →
      xs = ys ∧ u = v := by
  intro xs
  induction xs with
  | nil =>
    intro ys u v _ h
    cases ys with
    | nil => simpa using h
    | cons y ys' =>
      exfalso
      obtain ⟨c, r, hc, hne, _, _⟩ := stringify_head_not_special y
      cases ys' with
      | nil =>
        simp only [elemsStr, List.nil_append, hc, List.cons_append] at h
        exact hne (by injection h with h1 _; exact h1.symm)
      | cons z zs =>
        simp only [elemsStr, List.nil_append, hc, List.cons_append,
          List.append_assoc] at h
        exact absurd h (cons_head_ne (fun he => hne he.symm) _ _)
  | cons x xs' ih =>
    intro ys u v HP h
    have HPx := HP x (by simp)
    cases ys with
    | nil =>
      exfalso
      obtain ⟨c, r, hc, hne, _, _⟩ := stringify_head_not_special x
      cases xs' with
      | nil =>
        simp only [elemsStr, List.nil_append, hc, List.cons_append] at h
        exact absurd h (cons_head_ne hne _ _)
      | cons z zs =>
        simp only [elemsStr, List.nil_append, hc, List.cons_append,
          List.append_assoc] at h
        exact absurd h (cons_head_ne hne _ _)
    | cons y ys' =>
      cases xs' with
      | nil =>
        cases ys' with
        | nil =>
          simp only [elemsStr] at h
          obtain ⟨rfl, h2⟩ := HPx y _ _ (goodFollow_cons _ _ (by decide))
            (goodFollow_cons _ _ (by decide)) h
          injection h2 with hx2 h3
          exact ⟨rfl, h3⟩
        | cons z zs =>
          exfalso
          simp only [elemsStr, List.append_assoc, List.cons_append] at h
          obtain ⟨-, h2⟩ := HPx y _ _ (goodFollow_cons _ _ (by decide))
            (goodFollow_cons _ _ (by decide)) h
          exact cons_head_ne (by decide) _ _ h2
      | cons w ws =>
        cases ys' with
        | nil =>
          exfalso
          simp only [elemsStr, List.append_assoc, List.cons_append] at h
          obtain ⟨-, h2⟩ := HPx y _ _ (goodFollow_cons _ _ (by decide))
            (goodFollow_cons _ _ (by decide)) h
          exact cons_head_ne (by decide) _ _ h2
        | cons z zs =>
          simp only [elemsStr, List.append_assoc, List.cons_append] at h
          obtain ⟨rfl, h2⟩ := HPx y _ _ (goodFollow_cons _ _ (by decide))
            (goodFollow_cons _ _ (by decide)) h
          injection h2 with hx2 h3
          obtain ⟨h4, h5⟩ := ih (z :: zs) u v
            (fun t ht => HP t (by simp [ht])) h3
          exact ⟨by rw [h4], h5⟩

theorem fieldsStr_append_inj :
    ∀ (fs gs : List (Str × Json)) (u v : Str),
      (∀ kv ∈ fs, ∀ (b : Json) (u' v' : Str), goodFollow u' → goodFollow v' →
        jsonStringify kv.2 ++ u' = jsonStringify b ++ v' → kv.2 = b ∧ u' = v') →
      fieldsStr fs ++ '}' :: u = fieldsStr gs ++ '}' :: v →
      fs = gs ∧ u = v := by
  intro fs
  induction fs with
  | nil =>
    intro gs u v _ h
    cases gs with
    | nil => simpa using h
    | cons q gs' =>
      exfalso
      obtain ⟨k', w'⟩ := q
      cases gs' with
      | nil =>
        simp only [fieldsStr, List.nil_append, List.cons_append] at h
        exact cons_head_ne (by decide) _ _ h
      | cons q2 qs2 =>
        simp only [fieldsStr, List.nil_append, List.cons_append,
          List.append_assoc] at h
        exact cons_head_ne (by decide) _ _ h
  | cons p fs' ihf =>
    obtain ⟨k, w⟩ := p
    intro gs u v HP h
    have HPw := HP (k, w) (by simp)
    dsimp only at HPw
    cases gs with
    | nil =>
      exfalso
      cases fs' with
      | nil =>
        simp only [fieldsStr, List.nil_append, List.cons_append] at h
        exact cons_head_ne (by decide) _ _ h
      | cons q2 qs2 =>
        simp only [fieldsStr, List.nil_append, List.cons_append,
          List.append_assoc] at h
        exact cons_head_ne (by decide) _ _ h
    | cons q gs' =>
      obtain ⟨k', w'⟩ := q
      cases fs' with
      | nil =>
        cases gs' with
        | nil =>
          simp only [fieldsStr, List.cons_append, List.append_assoc,
            List.cons.injEq, true_and] at h
          obtain ⟨hk, h2⟩ := strBody_inj k k' _ _ h
          injection h2 with hx2 h3
          obtain ⟨hw, h4⟩ := HPw w' _ _ (goodFollow_cons _ _ (by decide))
            (goodFollow_cons _ _ (by decide)) h3
          injection h4 with hx4 h5
          exact ⟨by rw [hk, hw], h5⟩
        | cons q2 qs2 =>
          exfalso
          simp only [fieldsStr, List.cons_append, List.append_assoc,
            List.cons.injEq, true_and] at h
          obtain ⟨-, h2⟩ := strBody_inj k k' _ _ h
          injection h2 with hx2 h3
          obtain ⟨-, h4⟩ := HPw w' _ _ (goodFollow_cons _ _ (by decide))
            (goodFollow_cons _ _ (by decide)) h3
          exact cons_head_ne (by decide) _ _ h4
      | cons p2 ps2 =>
        cases gs' with
        | nil =>
          exfalso
          simp only [fieldsStr, List.cons_append, List.append_assoc,
            List.cons.injEq, true_and] at h
          obtain ⟨-, h2⟩ := strBody_inj k k' _ _ h
          injection h2 with hx2 h3
          obtain ⟨-, h4⟩ := HPw w' _ _ (goodFollow_cons _ _ (by decide))
            (goodFollow_cons _ _ (by decide)) h3
          exact cons_head_ne (by decide) _ _ h4
        | cons q2 qs2 =>
          simp only [fieldsStr, List.cons_append, List.append_assoc,
            List.cons.injEq, true_and] at h
          obtain ⟨hk, h2⟩ := strBody_inj k k' _ _ h
          injection h2 with hx2 h3
          obtain ⟨hw, h4⟩ := HPw w' _ _ (goodFollow_cons _ _ (by decide))
            (goodFollow_cons _ _ (by decide)) h3
          injection h4 with hx4 h5
          obtain ⟨h6, h7⟩ := ihf (q2 :: qs2) u v
            (fun t ht => HP t (by simp [ht])) h5
          exact ⟨by rw [hk, hw, h6], h7⟩

/-- `JSON.stringify` output followed by a continuation that cannot extend a
digit run is uniquely decodable: the serialized value and the continuation
are both determined. -/
theorem stringify_append_inj :
    ∀ (a b : Json) (u v : Str), goodFollow u → goodFollow v →
      jsonStringify a ++ u = jsonStringify b ++ v → a = b ∧ u = v := by
  suffices H : ∀ (N : Nat) (a b : Json) (u v : Str), sizeOf a ≤ N →
      goodFollow u → goodFollow v →
      jsonStringify a ++ u = jsonStringify b ++ v → a = b ∧ u = v by
    exact fun a b u v hu hv h => H (sizeOf a) a b u v le_rfl hu hv h
  intro N
  induction N using Nat.strong_induction_on with
  | _ N IH =>
    intro a b u v hN hu hv h
    cases a with
    | null =>
      cases b with
      | null =>
        simp only [jsonStringify, List.cons_append, List.cons.injEq,
          true_and] at h
        exact ⟨rfl, h⟩
      | bool bo =>
        exfalso
        cases bo <;>
          simp only [jsonStringify, List.cons_append] at h <;>
          exact absurd h (cons_head_ne (by decide) _ _)
      | num m =>
        exfalso
        simp only [jsonStringify, List.cons_append] at h
        exact intChars_head_not m 'n' (by decide) (by decide) _ _ h.symm
      | str s' =>
        exfalso
        simp only [jsonStringify, List.cons_append] at h
        exact absurd h (cons_head_ne (by decide) _ _)
      | arr ys =>
        exfalso
        simp only [jsonStringify, List.cons_append] at h
        exact absurd h (cons_head_ne (by decide) _ _)
      | obj gs =>
        exfalso
        simp only [jsonStringify, List.cons_append] at h
        exact absurd h (cons_head_ne (by decide) _ _)
    | bool b1 =>
      cases b with
      | null =>
        exfalso
        cases b1 <;>
          simp only [jsonStringify, List.cons_append] at h <;>
          exact absurd h (cons_head_ne (by decide) _ _)
      | bool b2 =>
        cases b1 <;> cases b2 <;>
          simp only [jsonStringify, List.cons_append, List.cons.injEq,
            true_and] at h
        · exact ⟨rfl, h⟩
        · exact absurd h.1 (by decide)
        · exact absurd h.1 (by decide)
        · exact ⟨rfl, h⟩
      | num m =>
        exfalso
        cases b1 <;> simp only [jsonStringify, List.cons_append] at h
        · exact intChars_head_not m 'f' (by decide) (by decide) _ _ h.symm
        · exact intChars_head_not m 't' (by decide) (by decide) _ _ h.symm
      | str s' =>
        exfalso
        cases b1 <;>
          simp only [jsonStringify, List.cons_append] at h <;>
          exact absurd h (cons_head_ne (by decide) _ _)
      | arr ys =>
        exfalso
        cases b1 <;>
          simp only [jsonStringify, List.cons_append] at h <;>
          exact absurd h (cons_head_ne (by decide) _ _)
      | obj gs =>
        exfalso
        cases b1 <;>
          simp only [jsonStringify, List.cons_append] at h <;>
          exact absurd h (cons_head_ne (by decide) _ _)
    | num n =>
      cases b with
      | null =>
        exfalso
        simp only [jsonStringify, List.cons_append] at h
        exact intChars_head_not n 'n' (by decide) (by decide) _ _ h
      | bool b2 =>
        exfalso
        cases b2 <;> simp only [jsonStringify, List.cons_append] at h
        · exact intChars_head_not n 'f' (by decide) (by decide) _ _ h
        · exact intChars_head_not n 't' (by decide) (by decide) _ _ h
      | num m =>
        simp only [jsonStringify] at h
        obtain ⟨hnm, h2⟩ := intChars_append_inj n m u v hu hv h
        exact ⟨by rw [hnm], h2⟩
      | str s' =>
        exfalso
        simp only [jsonStringify, List.cons_append] at h
        exact intChars_head_not n '"' (by decide) (by decide) _ _ h
      | arr ys =>
        exfalso
        simp only [jsonStringify, List.cons_append] at h
        exact intChars_head_not n '[' (by decide) (by decide) _ _ h
      | obj gs =>
        exfalso
        simp only [jsonStringify, List.cons_append] at h
        exact intChars_head_not n '{' (by decide) (by decide) _ _ h
    | str s =>
      cases b with
      | null =>
        exfalso
        simp only [jsonStringify, List.cons_append] at h
        exact absurd h (cons_head_ne (by decide) _ _)
      | bool b2 =>
        exfalso
        cases b2 <;>
          simp only [jsonStringify, List.cons_append] at h <;>
          exact absurd h (cons_head_ne (by decide) _ _)
      | num m =>
        exfalso
        simp only [jsonStringify, List.cons_append] at h
        exact intChars_head_not m '"' (by decide) (by decide) _ _ h.symm
      | str s' =>
        simp only [jsonStringify, List.cons_append, List.append_assoc,
          List.singleton_append, List.cons.injEq, true_and] at h
        obtain ⟨hk, h2⟩ := strBody_inj s s' u v h
        exact ⟨by rw [hk], h2⟩
      | arr ys =>
        exfalso
        simp only [jsonStringify, List.cons_append] at h
        exact absurd h (cons_head_ne (by decide) _ _)
      | obj gs =>
        exfalso
        simp only [jsonStringify, List.cons_append] at h
        exact absurd h (cons_head_ne (by decide) _ _)
    | arr xs =>
      cases b with
      | null =>
        exfalso
        simp only [jsonStringify, List.cons_append] at h
        exact absurd h (cons_head_ne (by decide) _ _)
      | bool b2 =>
        exfalso
        cases b2 <;>
          simp only [jsonStringify, List.cons_append] at h <;>
          exact absurd h (cons_head_ne (by decide) _ _)
      | num m =>
        exfalso
        simp only [jsonStringify, List.cons_append] at h
        exact intChars_head_not m '[' (by decide) (by decide) _ _ h.symm
      | str s' =>
        exfalso
        simp only [jsonStringify, List.cons_append] at h
        exact absurd h (cons_head_ne (by decide) _ _)
      | arr ys =>
        simp only [jsonStringify, List.cons_append, List.append_assoc,
          List.singleton_append, List.cons.injEq, true_and] at h
        have HP : ∀ x ∈ xs, ∀ (b : Json) (u' v' : Str), goodFollow u' →
            goodFollow v' → jsonStringify x ++ u' = jsonStringify b ++ v' →
            x = b ∧ u' = v' := by
          intro x hx
          have hsz : sizeOf x < N := by
            have h1 := List.sizeOf_lt_of_mem hx
            have h2 : sizeOf (Json.arr xs) ≤ N := hN
            simp only [Json.arr.sizeOf_spec] at h2
            omega
          exact fun b u' v' hu' hv' h' =>
            IH (sizeOf x) hsz x b u' v' le_rfl hu' hv' h'
        obtain ⟨hxy, h2⟩ := elemsStr_append_inj xs ys u v HP h
        exact ⟨by rw [hxy], h2⟩
      | obj gs =>
        exfalso
        simp only [jsonStringify, List.cons_append] at h
        exact absurd h (cons_head_ne (by decide) _ _)
    | obj fs =>
      cases b with
      | null =>
        exfalso
        simp only [jsonStringify, List.cons_append] at h
        exact absurd h (cons_head_ne (by decide) _ _)
      | bool b2 =>
        exfalso
        cases b2 <;>
          simp only [jsonStringify, List.cons_append] at h <;>
          exact absurd h (cons_head_ne (by decide) _ _)
      | num m =>
        exfalso
        simp only [jsonStringify, List.cons_append] at h
        exact intChars_head_not m '{' (by decide) (by decide) _ _ h.symm
      | str s' =>
        exfalso
        simp only [jsonStringify, List.cons_append] at h
        exact absurd h (cons_head_ne (by decide) _ _)
      | arr ys =>
        exfalso
        simp only [jsonStringify, List.cons_append] at h
        exact absurd h (cons_head_ne (by decide) _ _)
      | obj gs =>
        simp only [jsonStringify, List.cons_append, List.append_assoc,
          List.singleton_append, List.cons.injEq, true_and] at h
        have HP : ∀ kv ∈ fs, ∀ (b : Json) (u' v' : Str), goodFollow u' →
            goodFollow v' → jsonStringify kv.2 ++ u' = jsonStringify b ++ v' →
            kv.2 = b ∧ u' = v' := by
          intro kv hkv
          have hsz : sizeOf kv.2 < N := by
            have h1 := List.sizeOf_lt_of_mem hkv
            have h2 : sizeOf (Json.obj fs) ≤ N := hN
            simp only [Json.obj.sizeOf_spec] at h2
            obtain ⟨k, w⟩ := kv
            simp only [Prod.mk.sizeOf_spec] at h1
            dsimp only
            omega
          exact fun b u' v' hu' hv' h' =>
            IH (sizeOf kv.2) hsz kv.2 b u' v' le_rfl hu' hv' h'
        obtain ⟨hfg, h2⟩ := fieldsStr_append_inj fs gs u v HP h
        exact ⟨by rw [hfg], h2⟩

/-- `JSON.stringify` is injective on the modelled JSON values. -/
theorem jsonStringify_inj {a b : Json}
    (h : jsonStringify a = jsonStringify b) : a = b :=
  (stringify_append_inj a b [] [] trivial trivial (by simpa using h)).1

/-- The tool-call key determines the name and the presented argument list. -/
theorem getToolCallKey_inj {name a} {b : List (Str × Json)}
    (h : getToolCallKey name a = getToolCallKey name b) : a = b := by
  unfold getToolCallKey at h
  have h2 := List.append_cancel_left h
  injection h2 with hx h3
  have := jsonStringify_inj h3
  injection this

/-! ### Claims -/

/-- C7: for every state and every content-delta event, the boolean returned
by `addAndCheck` equals the result of a fresh sentence extraction from the
current (post-append, post-trim) buffer; the cached sentence list and the
growth tracker never influence the returned value. -/
theorem C7_cache_never_observable (st : LoopState) (text : Str) :
    (addAndCheck st (.content text)).2 =
      freshContentResult st.accumulatedContent text := by
  unfold addAndCheck freshContentResult
  dsimp only
  split <;>
    simp [refreshCache_accumulatedContent, appendAndTrim_accumulatedContent]

/-- C8: `reset` puts the engine in the freshly-constructed state, so every
subsequent event sequence produces exactly the results of a fresh engine,
and `reset` is idempotent. -/
theorem C8_reset_idempotent_restart (st : LoopState) (evs : List StreamEvent) :
    runEvents (reset st) evs = runEvents initialState evs ∧
      reset (reset st) = reset st := by
  exact ⟨rfl, rfl⟩

/-- C9: each event kind mutates only its own state: unhandled events return
`false` and leave the whole state unchanged, tool-call events leave the
content buffer, sentence cache and growth tracker unchanged, and content
events leave the tool-call counter map unchanged. -/
theorem C9_frame_effects :
    (∀ (st : LoopState) (tag : Str), addAndCheck st (.other tag) = (st, false)) ∧
    (∀ (st : LoopState) (name : Str) (args : List (Str × Json)),
      (addAndCheck st (.toolCallRequest name args)).1.accumulatedContent =
          st.accumulatedContent ∧
        (addAndCheck st (.toolCallRequest name args)).1.cachedSentences =
          st.cachedSentences ∧
        (addAndCheck st (.toolCallRequest name args)).1.lastContentLength =
          st.lastContentLength) ∧
    (∀ (st : LoopState) (text : Str),
      (addAndCheck st (.content text)).1.toolCallCounts = st.toolCallCounts) := by
  refine ⟨fun st tag => rfl, fun st name args => ⟨rfl, rfl, rfl⟩, fun st text => ?_⟩
  unfold addAndCheck
  dsimp only
  split <;>
    simp [refreshCache_toolCallCounts, appendAndTrim_toolCallCounts]

/-- C3: on a fresh engine, `N < TOOL_CALL_LOOP_THRESHOLD` identical
tool-call events all return `false`, and the 5th identical event returns
`true`. -/
theorem C3_toolcall_threshold (name : Str) (args : List (Str × Json))
    (N : Nat) (h : N < TOOL_CALL_LOOP_THRESHOLD) :
    (runEvents initialState
        (List.replicate N (.toolCallRequest name args))).2 =
      List.replicate N false ∧
    (runEvents initialState
        (List.replicate TOOL_CALL_LOOP_THRESHOLD
          (.toolCallRequest name args))).2 =
      List.replicate (TOOL_CALL_LOOP_THRESHOLD - 1) false ++ [true] := by
  constructor
  · rw [runEvents_toolCalls]
    apply expectedToolResults_false
    simpa [initialState, mapGet] using h
  · rw [runEvents_toolCalls]
    rfl

/-- Witness for C3 at `N = 4` with a concrete name and argument mapping. -/
theorem C3_witness :
    4 < TOOL_CALL_LOOP_THRESHOLD ∧
    ((runEvents initialState
        (List.replicate 4 (.toolCallRequest exName exArgsV))).2 =
      List.replicate 4 false ∧
    (runEvents initialState
        (List.replicate TOOL_CALL_LOOP_THRESHOLD
          (.toolCallRequest exName exArgsV))).2 =
      List.replicate (TOOL_CALL_LOOP_THRESHOLD - 1) false ++ [true]) :=
  ⟨by decide, C3_toolcall_threshold exName exArgsV 4 (by decide)⟩

/-- C10: tool-call detection is monotone until reset: once an update with a
tool-call event has returned `true`, every later update with the identical
event (after any further events, with no reset) also returns `true`. -/
theorem C10_toolcall_monotone (st : LoopState) (name : Str)
    (args : List (Str × Json))
    (h : (addAndCheck st (.toolCallRequest name args)).2 = true)
    (evs : List StreamEvent) :
    (addAndCheck
        (runEvents (addAndCheck st (.toolCallRequest name args)).1 evs).1
        (.toolCallRequest name args)).2 = true := by
  have h5 : TOOL_CALL_LOOP_THRESHOLD ≤
      (mapGet st.toolCallCounts (getToolCallKey name args)).getD 0 + 1 := by
    rw [addAndCheck_toolCall] at h
    simpa using h
  have h1 : (mapGet (addAndCheck st
        (.toolCallRequest name args)).1.toolCallCounts
        (getToolCallKey name args)).getD 0 =
      (mapGet st.toolCallCounts (getToolCallKey name args)).getD 0 + 1 := by
    rw [addAndCheck_toolCall]
    dsimp only
    rw [mapGet_mapSet_self]
    rfl
  have h2 := count_le_runEvents evs
    (addAndCheck st (.toolCallRequest name args)).1 (getToolCallKey name args)
  rw [h1] at h2
  rw [addAndCheck_toolCall]
  simp only [decide_eq_true_eq]
  simp only [TOOL_CALL_LOOP_THRESHOLD] at h5 ⊢
  omega

/-- Witness for C10: from a state whose counter stands at 4, the 5th
identical call returns `true`, and after two further unrelated events the
same call still returns `true`. -/
theorem C10_witness :
    (addAndCheck exPrimedState (.toolCallRequest exName exArgsV)).2 = true ∧
    (addAndCheck
        (runEvents (addAndCheck exPrimedState
            (.toolCallRequest exName exArgsV)).1
          [.content ['H', 'i', '.'], .other ['x']]).1
        (.toolCallRequest exName exArgsV)).2 = true :=
  ⟨by decide,
    C10_toolcall_monotone exPrimedState exName exArgsV (by decide)
      [.content ['H', 'i', '.'], .other ['x']]⟩

/-- C4 counterexample: `exLongSentence` is a single complete sentence,
non-empty after trimming, of 101 characters, so ten copies overflow the
1000-character window; on a fresh engine all ten identical deltas —
including the 10th — return `false`, refuting the claim that the 10th
returns `true`. -/
theorem C4_counterexample :
    extractSentences exLongSentence = [exLongSentence] ∧
      (trim exLongSentence).isEmpty = false ∧
      (runEvents initialState
          (List.replicate CONTENT_LOOP_THRESHOLD
            (.content exLongSentence))).2 =
        List.replicate CONTENT_LOOP_THRESHOLD false :=
  ⟨by decide, by decide, by decide⟩

/-- C4 (amended): for every complete sentence delta (non-empty after trim),
on a fresh engine every one of the first `N < CONTENT_LOOP_THRESHOLD`
identical deltas returns `false`; and provided ten copies of the sentence
fit inside the window (`10 * s.length ≤ 1000`), the 10th identical delta
returns `true`.  (Without the window bound the 10th delta may return
`false`: see the counterexample.) -/
theorem C4_content_threshold (s body : Str) (c : Char) (hs : s = body ++ [c])
    (hb : body ≠ []) (hnt : ∀ x ∈ body, isTerminal x = false)
    (hc : isTerminal c = true) :
    (∀ N, N < CONTENT_LOOP_THRESHOLD →
      (runEvents initialState (List.replicate N (.content s))).2 =
        List.replicate N false) ∧
    (CONTENT_LOOP_THRESHOLD * s.length ≤ MAX_LOOPBACK_WINDOW →
      (runEvents initialState
          (List.replicate CONTENT_LOOP_THRESHOLD (.content s))).2 =
        List.replicate (CONTENT_LOOP_THRESHOLD - 1) false ++ [true]) := by
  have hcount : s.countP isTerminal = 1 := by
    have hbody : body.countP isTerminal = 0 :=
      List.countP_eq_zero.mpr (fun x hx => by simp [hnt x hx])
    rw [hs, List.countP_append, hbody, List.countP_cons]
    simp [hc]
  constructor
  · intro N hN
    apply runEvents_content_false s (le_of_eq hcount)
    simpa [initialState] using hN
  · intro hwin
    have h := runEvents_content_noTrim s body c hs hb hnt hc
      CONTENT_LOOP_THRESHOLD 0 initialState rfl (by simpa using hwin)
    rw [h]
    rfl

/-- Witness for C4 (amended) at the sentence `"Period."`: three deltas all
return `false`, and the 10th identical delta returns `true`. -/
theorem C4_witness :
    (runEvents initialState
        (List.replicate 3 (.content exShortSentence))).2 =
      List.replicate 3 false ∧
    (runEvents initialState
        (List.replicate CONTENT_LOOP_THRESHOLD
          (.content exShortSentence))).2 =
      List.replicate (CONTENT_LOOP_THRESHOLD - 1) false ++ [true] := by
  have h := C4_content_threshold exShortSentence "Period".data '.'
    (by decide) (by decide) (by decide) (by decide)
  exact ⟨h.1 3 (by decide), h.2 (by decide)⟩

theorem appendAndTrim_overflow (st : LoopState) (text : Str)
    (h : (st.accumulatedContent ++ text).length > MAX_LOOPBACK_WINDOW) :
    appendAndTrim st text =
      { st with
          accumulatedContent := (st.accumulatedContent ++ text).drop
            ((st.accumulatedContent ++ text).length - MAX_LOOPBACK_WINDOW)
          cachedSentences := []
          lastContentLength := 0 } := by
  unfold appendAndTrim
  dsimp only
  rw [if_pos h]

/-- C6: whenever an append would exceed the window, the buffer is truncated
from the front to exactly `MAX_LOOPBACK_WINDOW` characters, the retained
content is a suffix of the pre-truncation buffer, and the sentence cache is
cleared with the growth tracker set to 0; `addAndCheck` performs exactly
this append-and-trim on the buffer, and after any update of a state whose
buffer is within the bound the buffer is still within the bound. -/
theorem C6_window_bound :
    (∀ (st : LoopState) (text : Str),
      (st.accumulatedContent ++ text).length > MAX_LOOPBACK_WINDOW →
        (appendAndTrim st text).accumulatedContent.length =
            MAX_LOOPBACK_WINDOW ∧
          (appendAndTrim st text).accumulatedContent =
            (st.accumulatedContent ++ text).drop
              ((st.accumulatedContent ++ text).length - MAX_LOOPBACK_WINDOW) ∧
          (appendAndTrim st text).accumulatedContent <:+
            st.accumulatedContent ++ text ∧
          (appendAndTrim st text).cachedSentences = [] ∧
          (appendAndTrim st text).lastContentLength = 0) ∧
    (∀ (st : LoopState) (text : Str),
      (addAndCheck st (.content text)).1.accumulatedContent =
        (appendAndTrim st text).accumulatedContent) ∧
    (∀ (st : LoopState) (e : StreamEvent),
      st.accumulatedContent.length ≤ MAX_LOOPBACK_WINDOW →
        (addAndCheck st e).1.accumulatedContent.length ≤
          MAX_LOOPBACK_WINDOW) := by
  refine ⟨fun st text h => ?_, fun st text => ?_, fun st e h => ?_⟩
  · rw [appendAndTrim_overflow st text h]
    dsimp only
    refine ⟨?_, rfl, List.drop_suffix _ _, rfl, rfl⟩
    rw [List.length_drop]
    simp only [MAX_LOOPBACK_WINDOW] at h ⊢
    omega
  · cases hct : containsTerminal text with
    | false => rw [addAndCheck_content_neg st text hct]
    | true =>
      rw [addAndCheck_content_pos st text hct]
      dsimp only
      rw [refreshCache_accumulatedContent]
  · cases e with
    | toolCallRequest name args => exact h
    | other tag => exact h
    | content text =>
      cases hct : containsTerminal text with
      | false =>
        rw [addAndCheck_content_neg st text hct]
        dsimp only
        rw [appendAndTrim_accumulatedContent]
        split <;> rename_i hover
        · rw [List.length_drop]; omega
        · omega
      | true =>
        rw [addAndCheck_content_pos st text hct]
        dsimp only
        rw [refreshCache_accumulatedContent, appendAndTrim_accumulatedContent]
        split <;> rename_i hover
        · rw [List.length_drop]; omega
        · omega

/-- Witness for C6 on a concrete 1001-character overflowing delta. -/
theorem C6_witness :
    ((appendAndTrim initialState exOverflowText).accumulatedContent.length =
        MAX_LOOPBACK_WINDOW ∧
      (appendAndTrim initialState exOverflowText).accumulatedContent =
        (initialState.accumulatedContent ++ exOverflowText).drop
          ((initialState.accumulatedContent ++ exOverflowText).length -
            MAX_LOOPBACK_WINDOW) ∧
      (appendAndTrim initialState exOverflowText).accumulatedContent <:+
        initialState.accumulatedContent ++ exOverflowText ∧
      (appendAndTrim initialState exOverflowText).cachedSentences = [] ∧
      (appendAndTrim initialState exOverflowText).lastContentLength = 0) ∧
    ((addAndCheck initialState (.content exOverflowText)).1.accumulatedContent =
      (appendAndTrim initialState exOverflowText).accumulatedContent) ∧
    ((addAndCheck initialState
        (.content exOverflowText)).1.accumulatedContent.length ≤
      MAX_LOOPBACK_WINDOW) :=
  ⟨C6_window_bound.1 initialState exOverflowText
      (by
        show (([] : Str) ++ List.replicate 1001 'a').length >
          MAX_LOOPBACK_WINDOW
        rw [List.nil_append, List.length_replicate]
        decide),
    C6_window_bound.2.1 initialState exOverflowText,
    C6_window_bound.2.2 initialState (.content exOverflowText)
      (by show ([] : Str).length ≤ MAX_LOOPBACK_WINDOW; decide)⟩

theorem getLastD_replicate {α : Type} (n : Nat) (x d : α) :
    (List.replicate (n + 1) x).getLastD d = x := by
  rw [List.replicate_succ', List.getLastD_concat]

theorem breaker_run_growths (t : ToolCallRecord) :
    ∀ (k j c : Nat) (st : BreakerState),
      st.lastHistoryLength = j →
      (mapGet st.toolCallCounts (toolCallSignature t)).getD 0 = c →
      (breakerRun st (breakerCalls t j k)).2 = expectedBreakerResults c k := by
  intro k
  induction k with
  | zero => intro j c st _ _; rfl
  | succ n ih =>
    intro j c st hj hc
    show (breakerRun st ((List.replicate (j + 1) (.toolGroup [t]),
      .Responding) :: breakerCalls t (j + 1) n)).2 = _
    unfold breakerRun
    dsimp only
    have hstep : breakerStep st (List.replicate (j + 1) (.toolGroup [t]))
        .Responding =
        ({ toolCallCounts := mapSet st.toolCallCounts (toolCallSignature t)
              (c + 1),
            lastHistoryLength := j + 1 },
          decide (LOOP_THRESHOLD ≤ c + 1)) := by
      unfold breakerStep
      rw [if_neg (by simp [hj])]
      rw [getLastD_replicate]
      simp [processTools, hc]
    rw [hstep]
    dsimp only
    rw [ih (j + 1) (c + 1) _ rfl (by rw [mapGet_mapSet_self]; rfl)]
    rfl

/-- C2 counterexample: six successive growths of the history, each
appending the same tool-group entry, all while `Responding` (so no reset
occurs anywhere): the cancellation callback is invoked on the 5th growth
and invoked *again* on the 6th, refuting "never invoked again until a
reset". -/
theorem C2_counterexample :
    exBreakerCalls.map (fun call => call.2) =
        List.replicate 6 StreamingState.Responding ∧
      (breakerRun initialBreakerState exBreakerCalls).2 =
        [false, false, false, false, true, true] :=
  ⟨by decide, by decide⟩

/-- C2 (amended): in history mode the callback is invoked at most once per
effect run, but it is not latched: with no idle reset, on every growth of
the history whose newest entry repeats the same tool call, the callback is
invoked exactly when the call's accumulated count reaches the threshold —
hence on the 5th growth and on every growth thereafter. -/
theorem C2_breaker_per_growth (t : ToolCallRecord) (k : Nat) :
    (breakerRun initialBreakerState (breakerCalls t 0 k)).2 =
      expectedBreakerResults 0 k :=
  breaker_run_growths t k 0 0 initialBreakerState rfl rfl

/-- C1 counterexample: `exArgsAB` and `exArgsBA` are the same key-to-value
map presented in different key orders (a permutation, with the same value
at each key), yet `getToolCallKey` produces different keys, and five
repeats of the same call alternating the two presentations never reach the
threshold (counted under two separate entries). -/
theorem C1_counterexample :
    exArgsAB.Perm exArgsBA ∧
      mapGetJ exArgsAB "a".data = mapGetJ exArgsBA "a".data ∧
      mapGetJ exArgsAB "b".data = mapGetJ exArgsBA "b".data ∧
      getToolCallKey exName exArgsAB ≠ getToolCallKey exName exArgsBA ∧
      (runEvents initialState
          [.toolCallRequest exName exArgsAB, .toolCallRequest exName exArgsBA,
            .toolCallRequest exName exArgsAB, .toolCallRequest exName exArgsBA,
            .toolCallRequest exName exArgsAB]).2 =
        List.replicate 5 false :=
  ⟨by unfold exArgsAB exArgsBA; exact List.Perm.swap _ _ _,
    rfl, rfl, by decide, by decide⟩

/-- C1 (amended): the tool-call key is order-dependent, not
order-independent: for a fixed name, two presented argument lists produce
the identical key exactly when they are identical lists — same keys, same
values, and the same presentation order.  Map-equal argument lists in
different key orders therefore produce different keys and are counted under
separate counter entries. -/
theorem C1_key_presentation (name : Str) (a b : List (Str × Json)) :
    getToolCallKey name a = getToolCallKey name b ↔ a = b := by
  constructor
  · exact getToolCallKey_inj
  · rintro rfl; rfl

/-- C5: for every tool name, argument mappings that differ as maps (some
key is bound to different values, or present in one and absent in the
other) produce different keys, so such calls never count toward the same
counter entry. -/
theorem C5_distinct_values_distinct_keys (name : Str)
    (a b : List (Str × Json)) (h : ∃ k, mapGetJ a k ≠ mapGetJ b k) :
    getToolCallKey name a ≠ getToolCallKey name b := by
  intro hkey
  obtain ⟨k, hk⟩ := h
  exact hk (by rw [getToolCallKey_inj hkey])

/-- Witness for C5: same name, same single key, different string values. -/
theorem C5_witness :
    getToolCallKey exName exArgsV ≠ getToolCallKey exName exArgsW :=
  C5_distinct_values_distinct_keys exName exArgsV exArgsW
    ⟨"param".data, by
      intro hcontra
      have h1 : mapGetJ exArgsV ("param".data) =
        some (.str "value".data) := rfl
      have h2 : mapGetJ exArgsW ("param".data) =
        some (.str "other".data) := rfl
      rw [h1, h2] at hcontra
      injection hcontra with h3
      injection h3 with h4
      exact absurd h4 (by decide)⟩

end LoopDetect
